import Mathlib

/-!
Verification of the eSurge execution and paged-cache input-preparation engine
(`easydel/inference/esurge/runners/model_runner.py`) against its specification.

The Python source is shallowly embedded below: pure functions become Lean
functions on `Nat`/`Int` and `List`, the jitted masked-array computations
become list/index arithmetic, and the mutable compiled-function cache becomes
explicit state passing.  All definitions are executable so that concrete
windows can be evaluated.
-/

/-! ### Bit lengths and ceiling logarithms

`bitLen` models Python `int.bit_length` (used by
`_get_padded_num_reqs_with_upper_limit` as `1 << (x - 1).bit_length()`), and
`ceilLog2` models the exact value of `jnp.ceil(jnp.log2 n)` computed by the
jitted `padded_num_reqs` code (exact ceiling of the base-2 logarithm; float32
is exact on the integer ranges involved).  Both are written with structural
fuel so the kernel can evaluate them. -/

/-- Number of bits of `n`: `bitLenAux fuel n` equals Python `n.bit_length()`
whenever `n ≤ fuel`. -/
def bitLenAux : Nat → Nat → Nat
  | 0, _ => 0
  | fuel + 1, n => if n = 0 then 0 else bitLenAux fuel (n / 2) + 1

/-- Python `int.bit_length`. -/
def bitLen (n : Nat) : Nat := bitLenAux n n

theorem bitLenAux_le_iff (fuel : Nat) : ∀ y k : Nat, y ≤ fuel →
    (bitLenAux fuel y ≤ k ↔ y < 2 ^ k) := by
  induction fuel with
  | zero =>
      intro y k hy
      have hy0 : y = 0 := Nat.le_zero.mp hy
      subst hy0
      simp [bitLenAux, Nat.pos_pow_of_pos]
  | succ fuel ih =>
      intro y k hy
      by_cases h0 : y = 0
      · subst h0
        simp [bitLenAux, Nat.pos_pow_of_pos]
      · have hy1 : 1 ≤ y := Nat.one_le_iff_ne_zero.mpr h0
        rw [show bitLenAux (fuel + 1) y = bitLenAux fuel (y / 2) + 1 by
          simp [bitLenAux, h0]]
        cases k with
        | zero =>
            constructor
            · omega
            · intro hlt; omega
        | succ k =>
            have hdiv : y / 2 ≤ fuel := by omega
            have := ih (y / 2) k hdiv
            have hstep : y / 2 < 2 ^ k ↔ y < 2 ^ (k + 1) := by
              rw [Nat.div_lt_iff_lt_mul (by omega : 0 < 2)]
              rw [Nat.pow_succ]
            omega

theorem bitLen_le_iff (y k : Nat) : bitLen y ≤ k ↔ y < 2 ^ k :=
  bitLenAux_le_iff y y k le_rfl

theorem lt_two_pow_bitLen (y : Nat) : y < 2 ^ bitLen y :=
  (bitLen_le_iff y (bitLen y)).mp le_rfl

/-- Exact ceiling of `log2 n` for `n ≥ 1`: `ceilLog2Aux fuel n` is correct
whenever `n ≤ fuel`. -/
def ceilLog2Aux : Nat → Nat → Nat
  | 0, _ => 0
  | fuel + 1, n => if n ≤ 1 then 0 else ceilLog2Aux fuel ((n + 1) / 2) + 1

/-- Exact mathematical value of `jnp.ceil(jnp.log2 n)` for positive integers. -/
def ceilLog2 (n : Nat) : Nat := ceilLog2Aux n n

theorem ceilLog2Aux_le_iff (fuel : Nat) : ∀ y k : Nat, y ≤ fuel → 1 ≤ y →
    (ceilLog2Aux fuel y ≤ k ↔ y ≤ 2 ^ k) := by
  induction fuel with
  | zero => intro y k hy hy1; omega
  | succ fuel ih =>
      intro y k hy hy1
      by_cases h1 : y ≤ 1
      · have hy1' : y = 1 := by omega
        subst hy1'
        rw [show ceilLog2Aux (fuel + 1) 1 = 0 by simp [ceilLog2Aux]]
        have h2 : 0 < 2 ^ k := Nat.pos_pow_of_pos k (by omega)
        omega
      · rw [show ceilLog2Aux (fuel + 1) y = ceilLog2Aux fuel ((y + 1) / 2) + 1 by
          simp [ceilLog2Aux, h1]]
        cases k with
        | zero =>
            constructor
            · omega
            · intro hle
              simp only [Nat.pow_zero] at hle
              omega
        | succ k =>
            have h2 : 2 ≤ y := by omega
            have hdiv1 : (y + 1) / 2 < y := by omega
            have hdiv : (y + 1) / 2 ≤ fuel := by omega
            have hdivpos : 1 ≤ (y + 1) / 2 := by omega
            have := ih ((y + 1) / 2) k hdiv hdivpos
            have hstep : (y + 1) / 2 ≤ 2 ^ k ↔ y ≤ 2 ^ (k + 1) := by
              have hlt : (y + 1) / 2 ≤ 2 ^ k ↔ y + 1 < (2 ^ k + 1) * 2 := by
                constructor
                · intro h
                  have : (y + 1) / 2 < 2 ^ k + 1 := by omega
                  exact (Nat.div_lt_iff_lt_mul (by omega : 0 < 2)).mp this
                · intro h
                  have : (y + 1) / 2 < 2 ^ k + 1 :=
                    (Nat.div_lt_iff_lt_mul (by omega : 0 < 2)).mpr h
                  omega
              rw [hlt, Nat.pow_succ]
              omega
            omega

theorem ceilLog2_le_iff (y k : Nat) (hy : 1 ≤ y) : ceilLog2 y ≤ k ↔ y ≤ 2 ^ k :=
  ceilLog2Aux_le_iff y y k le_rfl hy

theorem le_two_pow_ceilLog2 (y : Nat) (hy : 1 ≤ y) : y ≤ 2 ^ ceilLog2 y :=
  (ceilLog2_le_iff y (ceilLog2 y) hy).mp le_rfl

/-- For `x ≥ 1` the two roundings agree: `2 ^ bitLen (x-1)` (host code) and
`2 ^ ceilLog2 x` (jitted code) are both the least power of two that is `≥ x`. -/
theorem two_pow_bitLen_pred_eq (x : Nat) (hx : 1 ≤ x) :
    2 ^ bitLen (x - 1) = 2 ^ ceilLog2 x := by
  have h1 : bitLen (x - 1) ≤ ceilLog2 x := by
    rw [bitLen_le_iff]
    have := le_two_pow_ceilLog2 x hx
    omega
  have h2 : ceilLog2 x ≤ bitLen (x - 1) := by
    rw [ceilLog2_le_iff x _ hx]
    have := lt_two_pow_bitLen (x - 1)
    omega
  rw [Nat.le_antisymm h1 h2]

/-! ### Request-count padding

Mirrors `_get_padded_num_reqs_with_upper_limit` (model_runner.py lines
619-639) and the jitted `padded_num_reqs` computation inside
`get_prepare_inputs_fn` (lines 930-934). -/

/-- Mirrors `_get_padded_num_reqs_with_upper_limit`:
`res = min_input_pad if x <= min_input_pad else 1 << (x - 1).bit_length()`,
then `min(res, upper_limit)`. -/
def hostPaddedNumReqs (x upperLimit minInputPad : Nat) : Nat :=
  min (if x ≤ minInputPad then minInputPad else 2 ^ bitLen (x - 1)) upperLimit

/-- Mirrors the jitted computation:
`nr_safe = max(nr, 1)`, `next_pow2 = 1 << ceil(log2 nr_safe)`,
`padded = nr <= min_input_pad ? min_input_pad : next_pow2`, capped at
`max_num_reqs`.  `jnp.ceil(jnp.log2 _)` is modelled exactly by `ceilLog2`. -/
def jitPaddedNumReqs (nr minInputPad maxNumReqs : Nat) : Nat :=
  min (if nr ≤ minInputPad then minInputPad else 2 ^ ceilLog2 (max nr 1)) maxNumReqs

/-! ### Token-padding ladder

Mirrors `eSurgeRunner._get_token_paddings` (lines 956-988).  The `while`
loops are written with explicit fuel (`maxT + 1` steps always suffice when the
running value is positive) so the functions stay kernel-computable. -/

/-- The `padding_gap == 0` loop: `while num <= max_token_size: append num;
num *= 2`. -/
def doublingsAux : Nat → Nat → Nat → List Nat
  | 0, _, _ => []
  | fuel + 1, num, maxT => if num ≤ maxT then num :: doublingsAux fuel (num * 2) maxT else []

def doublings (num maxT : Nat) : List Nat := doublingsAux (maxT + 1) num maxT

/-- The first loop of the `padding_gap > 0` branch, tracking the final value
of `num`: `while num <= gap: num *= 2`. -/
def doubleFinal : Nat → Nat → Nat → Nat
  | 0, num, _ => num
  | fuel + 1, num, maxT => if num ≤ maxT then doubleFinal fuel (num * 2) maxT else num

/-- The additive loop of the `padding_gap > 0` branch:
`while num < max_token_size: num += gap; append num`. -/
def gapStepsAux : Nat → Nat → Nat → Nat → List Nat
  | 0, _, _, _ => []
  | fuel + 1, num, maxT, gap =>
      if num < maxT then (num + gap) :: gapStepsAux fuel (num + gap) maxT gap else []

/-- Mirrors `_get_token_paddings`: fails (`none`) unless `min_token_size` is a
power of two (checked bitwise, as in the source:
`min_token_size & (min_token_size - 1) == 0 and min_token_size > 0`); for
`padding_gap == 0` produces the doubling ladder, otherwise doubles up to the
gap and then steps additively. -/
def getTokenPaddings (minT maxT gap : Nat) : Option (List Nat) :=
  if minT &&& (minT - 1) = 0 ∧ 0 < minT then
    some
      (if gap = 0 then doublings minT maxT
       else doublings minT gap ++ gapStepsAux (maxT + 1) (doubleFinal (gap + 1) minT gap / 2) maxT gap)
  else none

theorem two_pow_land_pred (j : Nat) : 2 ^ j &&& (2 ^ j - 1) = 0 := by
  apply Nat.eq_of_testBit_eq
  intro i
  rw [Nat.testBit_land, Nat.testBit_two_pow, Nat.testBit_two_pow_sub_one, Nat.zero_testBit]
  by_cases h : j = i
  · subst h; simp
  · simp [h]

theorem mem_doublingsAux (fuel : Nat) : ∀ num maxT x : Nat, 0 < num →
    maxT + 1 ≤ fuel + num →
    (x ∈ doublingsAux fuel num maxT ↔ ∃ k, x = num * 2 ^ k ∧ x ≤ maxT) := by
  induction fuel with
  | zero =>
      intro num maxT x hnum hfuel
      simp only [doublingsAux, List.not_mem_nil, false_iff]
      rintro ⟨k, hk, hle⟩
      have : num ≤ num * 2 ^ k := Nat.le_mul_of_pos_right num (Nat.pos_pow_of_pos k (by omega))
      omega
  | succ fuel ih =>
      intro num maxT x hnum hfuel
      by_cases h : num ≤ maxT
      · rw [show doublingsAux (fuel + 1) num maxT = num :: doublingsAux fuel (num * 2) maxT by
          simp [doublingsAux, h]]
        rw [List.mem_cons, ih (num * 2) maxT x (by omega) (by omega)]
        constructor
        · rintro (rfl | ⟨k, rfl, hle⟩)
          · exact ⟨0, by simp, h⟩
          · exact ⟨k + 1, by ring, hle⟩
        · rintro ⟨k, rfl, hle⟩
          cases k with
          | zero => left; simp
          | succ k => right; exact ⟨k, by ring, hle⟩
      · rw [show doublingsAux (fuel + 1) num maxT = [] by simp [doublingsAux, h]]
        simp only [List.not_mem_nil, false_iff]
        rintro ⟨k, rfl, hle⟩
        have : num ≤ num * 2 ^ k := Nat.le_mul_of_pos_right num (Nat.pos_pow_of_pos k (by omega))
        omega

theorem chain_doublingsAux (fuel : Nat) : ∀ num maxT : Nat, 0 < num →
    List.Chain' (· < ·) (doublingsAux fuel num maxT) := by
  induction fuel with
  | zero => intro num maxT _; simp [doublingsAux]
  | succ fuel ih =>
      intro num maxT hnum
      by_cases h : num ≤ maxT
      · rw [show doublingsAux (fuel + 1) num maxT = num :: doublingsAux fuel (num * 2) maxT by
          simp [doublingsAux, h]]
        rw [List.chain'_cons']
        refine ⟨?_, ih (num * 2) maxT (by omega)⟩
        intro b hb
        cases fuel with
        | zero => simp [doublingsAux] at hb
        | succ fuel =>
            by_cases h2 : num * 2 ≤ maxT
            · rw [show doublingsAux (fuel + 1) (num * 2) maxT =
                  num * 2 :: doublingsAux fuel (num * 2 * 2) maxT by
                simp [doublingsAux, h2]] at hb
              simp only [List.head?_cons, Option.mem_def, Option.some.injEq] at hb
              omega
            · rw [show doublingsAux (fuel + 1) (num * 2) maxT = [] by
                simp [doublingsAux, h2]] at hb
              simp at hb
      · rw [show doublingsAux (fuel + 1) num maxT = [] by simp [doublingsAux, h]]
        simp

theorem le_getLast?_of_pairwise (l : List Nat) (hl : l.Pairwise (· < ·)) :
    ∀ x ∈ l, x ≤ l.getLast?.getD 0 := by
  induction l with
  | nil => simp
  | cons a l ih =>
      intro x hx
      rcases List.mem_cons.mp hx with rfl | hx2
      · cases l with
        | nil => simp
        | cons b l2 =>
            rw [List.getLast?_cons_cons]
            have hab : ∀ y ∈ b :: l2, x < y := (List.pairwise_cons.mp hl).1
            have hblast : (b :: l2).getLast?.getD 0 ∈ b :: l2 := by
              have : (b :: l2).getLast? = some ((b :: l2).getLast (by simp)) :=
                List.getLast?_eq_getLast _ _
              rw [this]
              exact List.getLast_mem _
            exact Nat.le_of_lt (hab _ hblast)
      · cases l with
        | nil => simp at hx2
        | cons b l2 =>
            rw [List.getLast?_cons_cons]
            exact ih (List.pairwise_cons.mp hl).2 x hx2

/-- C6: token-padding ladder values.  For every power-of-two `min_token_size`
and every `max_token_size`, `_get_token_paddings` with `padding_gap = 0`
returns the ascending list of the doublings `min · 2^k` that are
`≤ max_token_size`; its last element is the largest value (which defines
`max_num_tokens` in `_setup_variables`); in particular minimum 16, maximum
128 yields exactly `[16, 32, 64, 128]`. -/
theorem token_paddings_doubling (minT maxT : Nat) (hpow : ∃ j, minT = 2 ^ j) :
    ∃ l, getTokenPaddings minT maxT 0 = some l ∧
      List.Chain' (· < ·) l ∧
      (∀ x, x ∈ l ↔ ∃ k, x = minT * 2 ^ k ∧ x ≤ maxT) ∧
      (∀ x ∈ l, x ≤ l.getLast?.getD 0) ∧
      getTokenPaddings 16 128 0 = some [16, 32, 64, 128] := by
  obtain ⟨j, rfl⟩ := hpow
  have hpos : 0 < 2 ^ j := Nat.pos_pow_of_pos j (by omega)
  refine ⟨doublings (2 ^ j) maxT, ?_, ?_, ?_, ?_, by decide⟩
  · rw [getTokenPaddings, if_pos ⟨two_pow_land_pred j, hpos⟩]
    simp
  · exact chain_doublingsAux _ _ _ hpos
  · intro x
    exact mem_doublingsAux (maxT + 1) (2 ^ j) maxT x hpos (by omega)
  · apply le_getLast?_of_pairwise
    exact List.chain'_iff_pairwise.mp (chain_doublingsAux _ _ _ hpos)

/-- Witness for C6 at `min_token_size = 16`, `max_token_size = 128`. -/
theorem token_paddings_doubling_witness :
    (∃ j, (16 : Nat) = 2 ^ j) ∧
      ∃ l, getTokenPaddings 16 128 0 = some l ∧
        List.Chain' (· < ·) l ∧
        (∀ x, x ∈ l ↔ ∃ k, x = 16 * 2 ^ k ∧ x ≤ 128) ∧
        (∀ x ∈ l, x ≤ l.getLast?.getD 0) ∧
        getTokenPaddings 16 128 0 = some [16, 32, 64, 128] :=
  ⟨⟨4, by norm_num⟩, token_paddings_doubling 16 128 ⟨4, by norm_num⟩⟩

/-- C7: request-count padding rule.  The host function pads a count
`x ≤ min_input_pad` to `min(min_input_pad, upper_limit)` and a larger count
to the least power of two `≥ x`, capped at the upper limit; the jitted
`padded_num_reqs` computation agrees with the host function for every count
`x` with `1 ≤ x ≤ max_num_reqs`; and `_pad(3,32,8) = 8`, `_pad(10,32,8) = 16`,
`_pad(20,16,8) = 16`. -/
theorem padded_num_reqs_rule (x upperLimit minInputPad maxNumReqs : Nat)
    (hx : 1 ≤ x) (hxr : x ≤ maxNumReqs) :
    (x ≤ minInputPad → hostPaddedNumReqs x upperLimit minInputPad = min minInputPad upperLimit) ∧
    (minInputPad < x →
      ∃ p, hostPaddedNumReqs x upperLimit minInputPad = min p upperLimit ∧
        (∃ k, p = 2 ^ k) ∧ x ≤ p ∧ ∀ q, (∃ k, q = 2 ^ k) → x ≤ q → p ≤ q) ∧
    jitPaddedNumReqs x minInputPad maxNumReqs = hostPaddedNumReqs x maxNumReqs minInputPad ∧
    hostPaddedNumReqs 3 32 8 = 8 ∧ hostPaddedNumReqs 10 32 8 = 16 ∧
    hostPaddedNumReqs 20 16 8 = 16 := by
  refine ⟨?_, ?_, ?_, by decide, by decide, by decide⟩
  · intro h
    rw [hostPaddedNumReqs, if_pos h]
  · intro h
    rw [hostPaddedNumReqs, if_neg (by omega)]
    refine ⟨2 ^ bitLen (x - 1), rfl, ⟨bitLen (x - 1), rfl⟩, ?_, ?_⟩
    · have := lt_two_pow_bitLen (x - 1)
      omega
    · rintro q ⟨k, rfl⟩ hq
      exact Nat.pow_le_pow_right (by omega) ((bitLen_le_iff (x - 1) k).mpr (by omega))
  · rw [jitPaddedNumReqs, hostPaddedNumReqs]
    by_cases h : x ≤ minInputPad
    · rw [if_pos h, if_pos h]
    · rw [if_neg h, if_neg h, Nat.max_eq_left hx, two_pow_bitLen_pred_eq x hx]

/-- Witness for C7 at `x = 10`, `upper_limit = 32`, `min_input_pad = 8`,
`max_num_reqs = 32`. -/
theorem padded_num_reqs_rule_witness :
    (1 ≤ 10 ∧ 10 ≤ 32) ∧
    ((10 ≤ 8 → hostPaddedNumReqs 10 32 8 = min 8 32) ∧
      (8 < 10 →
        ∃ p, hostPaddedNumReqs 10 32 8 = min p 32 ∧
          (∃ k, p = 2 ^ k) ∧ 10 ≤ p ∧ ∀ q, (∃ k, q = 2 ^ k) → 10 ≤ q → p ≤ q) ∧
      jitPaddedNumReqs 10 8 32 = hostPaddedNumReqs 10 32 8 ∧
      hostPaddedNumReqs 3 32 8 = 8 ∧ hostPaddedNumReqs 10 32 8 = 16 ∧
      hostPaddedNumReqs 20 16 8 = 16) :=
  ⟨⟨by decide, by decide⟩, padded_num_reqs_rule 10 32 8 32 (by decide) (by decide)⟩

/-! ### Compiled-shape coverage (C2)

`ExecutorManager.compile` (lines 243-287) enumerates the request paddings as
`list(set(ufn(n, max_num_reqs) for n in range(max_num_reqs)))` -- note
`range(max_num_reqs)` stops at `max_num_reqs - 1` -- and compiles one
executable per `(num_tokens, padded_num_reqs)` pair of the ladder product.
At execution time the jitted input preparation computes `padded_num_reqs`
from the window's active request count, which can be `max_num_reqs` itself. -/

/-- Mirrors the `reqs_padds` enumeration of `ExecutorManager.compile`
(line 256); `list(set(..))` is modelled by deduplication (only membership
matters). -/
def compileReqPads (maxNumReqs minInputPad : Nat) : List Nat :=
  ((List.range maxNumReqs).map fun n => hostPaddedNumReqs n maxNumReqs minInputPad).dedup

/-- The set of `(num_tokens, padded_num_reqs)` shape keys stored by
`ExecutorManager.compile`: the product of the token-padding ladder with the
request paddings. -/
def compiledKeys (tokenPads : List Nat) (maxNumReqs minInputPad : Nat) : List (Nat × Nat) :=
  tokenPads.flatMap fun nt => (compileReqPads maxNumReqs minInputPad).map fun pr => (nt, pr)

/-- C2: the coverage invariant fails for `max_num_reqs = 17` (not a power of
two) with `min_input_pad = 8`.  `compile` only produces the request paddings
`{8, 16}`, but a window with all 17 requests active asks the jitted
preparation for `padded_num_reqs = 17`, so the shape key `(16, 17)` (and any
other key with request padding 17) is absent from the compiled cache and
`get_compiled_key` hits its fatal missing-key branch. -/
theorem compiled_shape_gap_eval :
    compileReqPads 17 8 = [8, 16] ∧
    jitPaddedNumReqs 17 8 17 = 17 ∧
    ((compiledKeys (doublings 16 128) 17 8).contains (16, 17)) = false ∧
    ∀ p ∈ compiledKeys (doublings 16 128) 17 8, p.2 ≠ 17 := by decide

/-! ### The compiled-function cache (C4, C5)

`ExecutorManager` keeps compiled executables in the Python dict
`_lowerd_history`.  Combined mode uses keys `(num_tokens, padded_num_reqs)`;
split mode uses `(num_tokens, padded_num_reqs, "hidden_states")` and
`(num_tokens, padded_num_reqs, "tokens")`.  A compilation event is modelled
by a fresh counter value (each `lower().compile()` produces a new object). -/

inductive CacheKey where
  | comb (numTokens paddedNumReqs : Nat)
  | hiddenStates (numTokens paddedNumReqs : Nat)
  | tokensStage (numTokens paddedNumReqs : Nat)
deriving DecidableEq, Repr

structure ExecutorCache where
  hist : List (CacheKey × Nat)
  counter : Nat
deriving DecidableEq, Repr

def hasKey (h : List (CacheKey × Nat)) (k : CacheKey) : Bool :=
  h.any fun p => decide (p.1 = k)

/-- Python dict assignment `d[k] = v`: overwrite in place when the key is
present, append otherwise. -/
def dictSet (h : List (CacheKey × Nat)) (k : CacheKey) (v : Nat) : List (CacheKey × Nat) :=
  if hasKey h k then h.map fun p => if p.1 = k then (k, v) else p else h ++ [(k, v)]

/-- Mirrors `ExecutorManager.compile_key` in AOT mode (lines 464-482): the
combined branch unconditionally lowers, compiles and stores under
`(num_tokens, padded_num_reqs)`; the separate branch guards each of its two
keys with an `if key not in self._lowerd_history` presence check. -/
def compileKey (useCombined : Bool) (st : ExecutorCache) (nt pr : Nat) : ExecutorCache :=
  if useCombined then
    { hist := dictSet st.hist (CacheKey.comb nt pr) st.counter, counter := st.counter + 1 }
  else
    let st1 :=
      if hasKey st.hist (CacheKey.hiddenStates nt pr) then st
      else
        { hist := dictSet st.hist (CacheKey.hiddenStates nt pr) st.counter,
          counter := st.counter + 1 }
    if hasKey st1.hist (CacheKey.tokensStage nt pr) then st1
    else
      { hist := dictSet st1.hist (CacheKey.tokensStage nt pr) st1.counter,
        counter := st1.counter + 1 }

/-- One iteration of the outer loop of `ExecutorManager.compile`: all request
paddings for one token padding. -/
def compileRow (useCombined : Bool) (nt : Nat) (reqPads : List Nat) (st : ExecutorCache) :
    ExecutorCache :=
  reqPads.foldl (fun acc pr => compileKey useCombined acc nt pr) st

/-- Mirrors `ExecutorManager.compile` (lines 243-287): the double loop over
the ladder product. -/
def compileAll (useCombined : Bool) (tokenPads reqPads : List Nat) (st : ExecutorCache) :
    ExecutorCache :=
  tokenPads.foldl (fun acc nt => compileRow useCombined nt reqPads acc) st

theorem hasKey_dictSet_self (h : List (CacheKey × Nat)) (k : CacheKey) (v : Nat) :
    hasKey (dictSet h k v) k = true := by
  rw [dictSet]
  by_cases hk : hasKey h k
  · rw [if_pos hk]
    rw [hasKey, List.any_map]
    rw [hasKey, List.any_eq_true] at hk
    obtain ⟨p, hp, hpk⟩ := hk
    rw [List.any_eq_true]
    refine ⟨p, hp, ?_⟩
    simp only [Function.comp_apply]
    rw [of_decide_eq_true hpk]
    simp
  · rw [if_neg hk, hasKey, List.any_append]
    simp [hasKey]

theorem hasKey_dictSet_mono (h : List (CacheKey × Nat)) (k k2 : CacheKey) (v : Nat)
    (hk2 : hasKey h k2 = true) : hasKey (dictSet h k v) k2 = true := by
  rw [dictSet]
  rw [hasKey, List.any_eq_true] at hk2
  obtain ⟨p, hp, hpk⟩ := hk2
  have hpk' : p.1 = k2 := of_decide_eq_true hpk
  by_cases hk : hasKey h k
  · rw [if_pos hk, hasKey, List.any_map, List.any_eq_true]
    refine ⟨p, hp, ?_⟩
    simp only [Function.comp_apply]
    by_cases hpe : p.1 = k
    · rw [if_pos hpe]
      simp [← hpe, hpk']
    · rw [if_neg hpe]
      simp [hpk']
  · rw [if_neg hk, hasKey, List.any_append]
    simp only [Bool.or_eq_true, List.any_eq_true]
    exact Or.inl ⟨p, hp, hpk⟩

theorem hasKey_compileKey_mono (m : Bool) (st : ExecutorCache) (nt pr : Nat) (k : CacheKey)
    (hk : hasKey st.hist k = true) : hasKey (compileKey m st nt pr).hist k = true := by
  cases m with
  | true => simpa [compileKey] using hasKey_dictSet_mono st.hist _ k st.counter hk
  | false =>
      rw [compileKey]
      simp only [Bool.false_eq_true, if_false]
      by_cases h1 : hasKey st.hist (CacheKey.hiddenStates nt pr)
      · rw [if_pos h1]
        by_cases h2 : hasKey st.hist (CacheKey.tokensStage nt pr)
        · rw [if_pos h2]; exact hk
        · rw [if_neg h2]
          exact hasKey_dictSet_mono st.hist _ k st.counter hk
      · rw [if_neg h1]
        have hk1 := hasKey_dictSet_mono st.hist (CacheKey.hiddenStates nt pr) k st.counter hk
        by_cases h2 : hasKey (dictSet st.hist (CacheKey.hiddenStates nt pr) st.counter)
            (CacheKey.tokensStage nt pr)
        · rw [if_pos h2]; exact hk1
        · rw [if_neg h2]
          exact hasKey_dictSet_mono _ _ k _ hk1

theorem compileKey_sep_mem (st : ExecutorCache) (nt pr : Nat) :
    hasKey (compileKey false st nt pr).hist (CacheKey.hiddenStates nt pr) = true ∧
      hasKey (compileKey false st nt pr).hist (CacheKey.tokensStage nt pr) = true := by
  rw [compileKey]
  simp only [Bool.false_eq_true, if_false]
  by_cases h1 : hasKey st.hist (CacheKey.hiddenStates nt pr)
  · rw [if_pos h1]
    by_cases h2 : hasKey st.hist (CacheKey.tokensStage nt pr)
    · rw [if_pos h2]; exact ⟨h1, h2⟩
    · rw [if_neg h2]
      exact ⟨hasKey_dictSet_mono _ _ _ _ h1, hasKey_dictSet_self _ _ _⟩
  · rw [if_neg h1]
    have hk1 := hasKey_dictSet_self st.hist (CacheKey.hiddenStates nt pr) st.counter
    by_cases h2 : hasKey (dictSet st.hist (CacheKey.hiddenStates nt pr) st.counter)
        (CacheKey.tokensStage nt pr)
    · rw [if_pos h2]; exact ⟨hk1, h2⟩
    · rw [if_neg h2]
      exact ⟨hasKey_dictSet_mono _ _ _ _ hk1, hasKey_dictSet_self _ _ _⟩

theorem compileKey_sep_noop (st : ExecutorCache) (nt pr : Nat)
    (h1 : hasKey st.hist (CacheKey.hiddenStates nt pr) = true)
    (h2 : hasKey st.hist (CacheKey.tokensStage nt pr) = true) :
    compileKey false st nt pr = st := by
  rw [compileKey]
  simp only [Bool.false_eq_true, if_false]
  rw [if_pos h1, if_pos h2]

theorem hasKey_compileRow_mono (m : Bool) (nt : Nat) (rp : List Nat) :
    ∀ (st : ExecutorCache) (k : CacheKey), hasKey st.hist k = true →
      hasKey (compileRow m nt rp st).hist k = true := by
  induction rp with
  | nil => intro st k hk; exact hk
  | cons pr rp ih =>
      intro st k hk
      rw [compileRow, List.foldl_cons]
      exact ih (compileKey m st nt pr) k (hasKey_compileKey_mono m st nt pr k hk)

theorem hasKey_compileAll_mono (m : Bool) (tp rp : List Nat) :
    ∀ (st : ExecutorCache) (k : CacheKey), hasKey st.hist k = true →
      hasKey (compileAll m tp rp st).hist k = true := by
  induction tp with
  | nil => intro st k hk; exact hk
  | cons nt tp ih =>
      intro st k hk
      rw [compileAll, List.foldl_cons]
      exact ih (compileRow m nt rp st) k (hasKey_compileRow_mono m nt rp st k hk)

theorem compileRow_sep_mem (nt : Nat) (rp : List Nat) :
    ∀ st, ∀ pr ∈ rp,
      hasKey (compileRow false nt rp st).hist (CacheKey.hiddenStates nt pr) = true ∧
        hasKey (compileRow false nt rp st).hist (CacheKey.tokensStage nt pr) = true := by
  induction rp with
  | nil => intro st pr h; simp at h
  | cons pr0 rp ih =>
      intro st pr hpr
      rw [compileRow, List.foldl_cons]
      rcases List.mem_cons.mp hpr with rfl | hpr2
      · have h := compileKey_sep_mem st nt pr
        exact ⟨hasKey_compileRow_mono false nt rp _ _ h.1,
          hasKey_compileRow_mono false nt rp _ _ h.2⟩
      · exact ih (compileKey false st nt pr0) pr hpr2

theorem compileAll_sep_mem (tp rp : List Nat) :
    ∀ st, ∀ nt ∈ tp, ∀ pr ∈ rp,
      hasKey (compileAll false tp rp st).hist (CacheKey.hiddenStates nt pr) = true ∧
        hasKey (compileAll false tp rp st).hist (CacheKey.tokensStage nt pr) = true := by
  induction tp with
  | nil => intro st nt h; simp at h
  | cons nt0 tp ih =>
      intro st nt hnt pr hpr
      rw [compileAll, List.foldl_cons]
      rcases List.mem_cons.mp hnt with rfl | hnt2
      · have h := compileRow_sep_mem nt rp st pr hpr
        exact ⟨hasKey_compileAll_mono false tp rp _ _ h.1,
          hasKey_compileAll_mono false tp rp _ _ h.2⟩
      · exact ih (compileRow false nt0 rp st) nt hnt2 pr hpr

theorem compileRow_sep_noop (nt : Nat) (rp : List Nat) (st : ExecutorCache)
    (h : ∀ pr ∈ rp, hasKey st.hist (CacheKey.hiddenStates nt pr) = true ∧
        hasKey st.hist (CacheKey.tokensStage nt pr) = true) :
    compileRow false nt rp st = st := by
  induction rp with
  | nil => rfl
  | cons pr rp ih =>
      rw [compileRow, List.foldl_cons,
        compileKey_sep_noop st nt pr (h pr (by simp)).1 (h pr (by simp)).2]
      exact ih fun pr2 hpr2 => h pr2 (by simp [hpr2])

theorem compileAll_sep_noop (tp rp : List Nat) :
    ∀ st : ExecutorCache,
      (∀ nt ∈ tp, ∀ pr ∈ rp, hasKey st.hist (CacheKey.hiddenStates nt pr) = true ∧
        hasKey st.hist (CacheKey.tokensStage nt pr) = true) →
      compileAll false tp rp st = st := by
  induction tp with
  | nil => intro st _; rfl
  | cons nt tp ih =>
      intro st h
      rw [compileAll, List.foldl_cons,
        compileRow_sep_noop nt rp st fun pr hpr => h nt (by simp) pr hpr]
      exact ih st fun nt2 hnt2 pr hpr => h nt2 (by simp [hnt2]) pr hpr

def keysOf (h : List (CacheKey × Nat)) : List CacheKey := h.map Prod.fst

theorem keysOf_dictSet_present (h : List (CacheKey × Nat)) (k : CacheKey) (v : Nat)
    (hk : hasKey h k = true) : keysOf (dictSet h k v) = keysOf h := by
  rw [dictSet, if_pos hk, keysOf, keysOf, List.map_map]
  apply List.map_congr_left
  intro p _
  simp only [Function.comp_apply]
  by_cases hpe : p.1 = k
  · rw [if_pos hpe]; simp [hpe]
  · rw [if_neg hpe]

theorem hasKey_compileKey_comb (st : ExecutorCache) (nt pr : Nat) :
    hasKey (compileKey true st nt pr).hist (CacheKey.comb nt pr) = true := by
  rw [compileKey, if_pos rfl]
  exact hasKey_dictSet_self st.hist _ st.counter

theorem keysOf_compileKey_comb (st : ExecutorCache) (nt pr : Nat)
    (hk : hasKey st.hist (CacheKey.comb nt pr) = true) :
    keysOf (compileKey true st nt pr).hist = keysOf st.hist := by
  rw [compileKey, if_pos rfl]
  exact keysOf_dictSet_present st.hist _ st.counter hk

theorem compileRow_comb_mem (nt : Nat) (rp : List Nat) :
    ∀ st, ∀ pr ∈ rp, hasKey (compileRow true nt rp st).hist (CacheKey.comb nt pr) = true := by
  induction rp with
  | nil => intro st pr h; simp at h
  | cons pr0 rp ih =>
      intro st pr hpr
      rw [compileRow, List.foldl_cons]
      rcases List.mem_cons.mp hpr with rfl | hpr2
      · exact hasKey_compileRow_mono true nt rp _ _ (hasKey_compileKey_comb st nt pr)
      · exact ih (compileKey true st nt pr0) pr hpr2

theorem compileAll_comb_mem (tp rp : List Nat) :
    ∀ st, ∀ nt ∈ tp, ∀ pr ∈ rp,
      hasKey (compileAll true tp rp st).hist (CacheKey.comb nt pr) = true := by
  induction tp with
  | nil => intro st nt h; simp at h
  | cons nt0 tp ih =>
      intro st nt hnt pr hpr
      rw [compileAll, List.foldl_cons]
      rcases List.mem_cons.mp hnt with rfl | hnt2
      · exact hasKey_compileAll_mono true tp rp _ _ (compileRow_comb_mem nt rp st pr hpr)
      · exact ih (compileRow true nt0 rp st) nt hnt2 pr hpr

theorem keysOf_compileRow_comb (nt : Nat) (rp : List Nat) :
    ∀ st, (∀ pr ∈ rp, hasKey st.hist (CacheKey.comb nt pr) = true) →
      keysOf (compileRow true nt rp st).hist = keysOf st.hist := by
  induction rp with
  | nil => intro st _; rfl
  | cons pr rp ih =>
      intro st h
      rw [compileRow, List.foldl_cons]
      have step : keysOf (compileRow true nt rp (compileKey true st nt pr)).hist =
          keysOf (compileKey true st nt pr).hist :=
        ih (compileKey true st nt pr) fun pr2 hpr2 =>
          hasKey_compileKey_mono true st nt pr _ (h pr2 (by simp [hpr2]))
      exact step.trans (keysOf_compileKey_comb st nt pr (h pr (by simp)))

theorem keysOf_compileAll_comb (tp rp : List Nat) :
    ∀ st, (∀ nt ∈ tp, ∀ pr ∈ rp, hasKey st.hist (CacheKey.comb nt pr) = true) →
      keysOf (compileAll true tp rp st).hist = keysOf st.hist := by
  induction tp with
  | nil => intro st _; rfl
  | cons nt tp ih =>
      intro st h
      rw [compileAll, List.foldl_cons]
      have step : keysOf (compileAll true tp rp (compileRow true nt rp st)).hist =
          keysOf (compileRow true nt rp st).hist :=
        ih (compileRow true nt rp st) fun nt2 hnt2 pr hpr =>
          hasKey_compileRow_mono true nt rp st _ (h nt2 (by simp [hnt2]) pr hpr)
      exact step.trans (keysOf_compileRow_comb nt rp st fun pr hpr => h nt (by simp) pr hpr)

/-- C4 counterexample: in combined mode `compile_key` has no key-presence
check -- recompiling a key that is already present re-lowers, re-compiles and
overwrites the stored executable (modelled by the fresh counter value), so it
is not a no-op. -/
theorem compile_combined_not_noop_cex :
    compileKey true { hist := [(CacheKey.comb 16 8, 0)], counter := 1 } 16 8 ≠
      { hist := [(CacheKey.comb 16 8, 0)], counter := 1 } := by decide

/-- C4 (amended): in split-stage mode recompiling is guarded by key-presence
checks, so a second `compile` over the same ladder is the identity on the
cache state; in combined mode there is no presence check -- a second
`compile` re-compiles and overwrites every entry -- but it adds no new cache
entries: the key sequence of the cache is unchanged. -/
theorem compile_idempotence_amended (tokenPads reqPads : List Nat) (st : ExecutorCache) :
    compileAll false tokenPads reqPads (compileAll false tokenPads reqPads st) =
      compileAll false tokenPads reqPads st ∧
    keysOf (compileAll true tokenPads reqPads (compileAll true tokenPads reqPads st)).hist =
      keysOf (compileAll true tokenPads reqPads st).hist := by
  constructor
  · exact compileAll_sep_noop tokenPads reqPads _ fun nt hnt pr hpr =>
      compileAll_sep_mem tokenPads reqPads st nt hnt pr hpr
  · exact keysOf_compileAll_comb tokenPads reqPads _ fun nt hnt pr hpr =>
      compileAll_comb_mem tokenPads reqPads st nt hnt pr hpr

/-! ### The execute return pair (C5)

`ExecutorManager.execute` (lines 173-241).  The numerical model, head
projection and sampler are external capabilities; they are abstracted as
function parameters over `Nat` so the data flow of `execute` is exact. -/

/-- Mirrors the combined branch of `execute` (lines 206-220): one fused call
produces the token ids and the pair `(token_ids, None)` is returned. -/
def executeCombined (combinedFn : Nat → Nat) (x : Nat) : Nat × Option Nat :=
  (combinedFn x, none)

/-- Mirrors the separate branch of `execute` (lines 221-241): the hidden-state
function runs first, then the tokens function applies the output head at the
logits indices and samples; the code then returns `token_ids, token_ids`. -/
def executeSeparate (hiddenFn : Nat → Nat) (applyHead : Nat → Nat) (sampleFn : Nat → Nat)
    (x : Nat) : Nat × Option Nat :=
  let hidden := hiddenFn x
  let tokenIds := sampleFn (applyHead hidden)
  (tokenIds, some tokenIds)

/-- C5: evaluation at a concrete split-stage instance.  With the head
projection doubling its input and the sampler adding one, the raw logits at
the selected indices are `10`, yet `execute` returns `(11, some 11)`: the
second component is the sampled token ids again (`return token_ids,
token_ids`, line 241), not the raw logits the docstring and spec promise.
The combined branch returns `none` as specified. -/
theorem execute_separate_returns_tokens_eval :
    executeCombined (fun x => x + 3) 5 = (8, none) ∧
    executeSeparate (fun x => x) (fun h => h * 2) (fun l => l + 1) 5 = (11, some 11) ∧
    (executeSeparate (fun x => x) (fun h => h * 2) (fun l => l + 1) 5).2 ≠
      some ((fun h => h * 2) ((fun x => x) 5)) := by
  refine ⟨rfl, rfl, ?_⟩
  simp [executeSeparate]

/-! ### Token commit (C3)

Mirrors `eSurgeRunner._apply_sampled_tokens_and_update` (lines 1363-1396) and
the per-request output assembly of `_process_sampled_tokens` (lines
1632-1645).  The ledger arrays become lists; the jitted masked scatter-add is
reproduced row by row. -/

/-- `valid_mask = active_mask & (scheduled_tokens > 0) & (seq_lens >=
req_num_tokens)` (line 1383). -/
def commitValid (active : List Bool) (sched reqNum nct : List Nat) (r : Nat) : Bool :=
  active.getD r false && decide (0 < sched.getD r 0) &&
    decide (reqNum.getD r 0 ≤ nct.getD r 0 + sched.getD r 0)

/-- `j = clip(seq_lens, 0, max_len_m1)` (line 1387); the lower clip is
vacuous over `Nat`. -/
def commitIndex (maxLenMinusOne : Nat) (nct sched : List Nat) (r : Nat) : Nat :=
  min (nct.getD r 0 + sched.getD r 0) maxLenMinusOne

/-- One row of the masked write (lines 1390-1392): the row is updated at its
write index by `delta = valid ? sampled - current : 0` (a masked set
expressed as an add). -/
def commitRow (maxLenMinusOne : Nat) (active : List Bool) (sched reqNum nct : List Nat)
    (sampled : List Int) (r : Nat) (row : List Int) : List Int :=
  let j := commitIndex maxLenMinusOne nct sched r
  let delta : Int :=
    if commitValid active sched reqNum nct r then sampled.getD r 0 - row.getD j 0 else 0
  row.set j (row.getD j 0 + delta)

/-- Mirrors `_apply_sampled_tokens_and_update`: returns the updated token-id
table, the updated per-row token counts, the out-token vector (`-1` for
invalid rows) and the valid mask. -/
def applySampledTokens (maxLenMinusOne : Nat) (tokenIds : List (List Int))
    (numTokens : List Nat) (sampled : List Int) (sched reqNum nct : List Nat)
    (active : List Bool) : List (List Int) × List Nat × List Int × List Bool :=
  ((List.range tokenIds.length).map fun r =>
      commitRow maxLenMinusOne active sched reqNum nct sampled r (tokenIds.getD r []),
   (List.range numTokens.length).map fun r =>
      numTokens.getD r 0 + (if commitValid active sched reqNum nct r then 1 else 0),
   (List.range sampled.length).map fun r =>
      if commitValid active sched reqNum nct r then sampled.getD r 0 else -1,
   (List.range active.length).map fun r => commitValid active sched reqNum nct r)

/-- Per-request tick output in `_process_sampled_tokens` (lines 1638-1645):
a valid row contributes `[token]`, an invalid one contributes `[]`. -/
def tickOutputRow (valid : List Bool) (outTok : List Int) (r : Nat) : List Int :=
  if valid.getD r false then [outTok.getD r 0] else []

/-- Output-history append in `_process_sampled_tokens` (lines 1641-1643):
only a valid row appends its token. -/
def appendHist (hist : List Int) (valid : List Bool) (outTok : List Int) (r : Nat) : List Int :=
  if valid.getD r false then hist ++ [outTok.getD r 0] else hist

theorem list_set_getD_self (l : List Int) (j : Nat) : l.set j (l.getD j 0) = l := by
  induction l generalizing j with
  | nil => rfl
  | cons a l ih =>
      cases j with
      | zero => simp [List.getD_cons_zero]
      | succ j => simp only [List.set_cons_succ, List.getD_cons_succ, ih]

theorem getD_range_map {α : Type} (f : Nat → α) (n r : Nat) (d : α) (hr : r < n) :
    ((List.range n).map f).getD r d = f r := by
  rw [List.getD_eq_getElem?_getD, List.getElem?_map, List.getElem?_range hr]
  rfl

/-- C3 counterexample: the write index is clipped to `max_len - 1`.  With a
row of length 4 (`max_len_m1 = 3`), `nct = 2`, `sched = 2` and
`req_num_tokens = 4`, the request commits and the code writes the sampled
token `9` at index `3`, not at the claimed offset `nct + sched = 4` (a set at
offset 4 would leave the row unchanged). -/
theorem token_commit_offset_clip_cex :
    commitRow 3 [true] [2] [4] [2] [9] 0 [0, 0, 0, 0] = [0, 0, 0, 9] ∧
    commitRow 3 [true] [2] [4] [2] [9] 0 [0, 0, 0, 0] ≠ List.set [0, 0, 0, 0] 4 9 := by
  decide

/-- C3 (amended): after a tick, an active row commits a sampled token iff
`scheduled > 0` and `nct + scheduled ≥ req_num_tokens`; a committed token is
written at offset `min(nct + scheduled, max_len - 1)` -- i.e. at
`nct + scheduled` whenever that offset lies inside the row -- the row's token
count grows by exactly one and the token is appended to the request's output
history; an active row that does not commit keeps its row, keeps its count,
contributes `[]` to the tick output and appends nothing. -/
theorem token_commit_condition (maxLenMinusOne : Nat) (tokenIds : List (List Int))
    (numTokens : List Nat) (sampled : List Int) (sched reqNum nct : List Nat)
    (active : List Bool) (r : Nat)
    (hr1 : r < tokenIds.length) (hr2 : r < numTokens.length) (hr3 : r < sampled.length)
    (hr4 : r < active.length) (hact : active.getD r false = true) :
    (commitValid active sched reqNum nct r = true ↔
      (0 < sched.getD r 0 ∧ reqNum.getD r 0 ≤ nct.getD r 0 + sched.getD r 0)) ∧
    (commitValid active sched reqNum nct r = true →
      (applySampledTokens maxLenMinusOne tokenIds numTokens sampled sched reqNum nct
          active).1.getD r [] =
        (tokenIds.getD r []).set (min (nct.getD r 0 + sched.getD r 0) maxLenMinusOne)
          (sampled.getD r 0) ∧
      (applySampledTokens maxLenMinusOne tokenIds numTokens sampled sched reqNum nct
          active).2.1.getD r 0 = numTokens.getD r 0 + 1 ∧
      tickOutputRow
          (applySampledTokens maxLenMinusOne tokenIds numTokens sampled sched reqNum nct
            active).2.2.2
          (applySampledTokens maxLenMinusOne tokenIds numTokens sampled sched reqNum nct
            active).2.2.1 r = [sampled.getD r 0] ∧
      ∀ hist,
        appendHist hist
            (applySampledTokens maxLenMinusOne tokenIds numTokens sampled sched reqNum nct
              active).2.2.2
            (applySampledTokens maxLenMinusOne tokenIds numTokens sampled sched reqNum nct
              active).2.2.1 r = hist ++ [sampled.getD r 0]) ∧
    (commitValid active sched reqNum nct r = false →
      (applySampledTokens maxLenMinusOne tokenIds numTokens sampled sched reqNum nct
          active).1.getD r [] = tokenIds.getD r [] ∧
      (applySampledTokens maxLenMinusOne tokenIds numTokens sampled sched reqNum nct
          active).2.1.getD r 0 = numTokens.getD r 0 ∧
      tickOutputRow
          (applySampledTokens maxLenMinusOne tokenIds numTokens sampled sched reqNum nct
            active).2.2.2
          (applySampledTokens maxLenMinusOne tokenIds numTokens sampled sched reqNum nct
            active).2.2.1 r = [] ∧
      ∀ hist,
        appendHist hist
            (applySampledTokens maxLenMinusOne tokenIds numTokens sampled sched reqNum nct
              active).2.2.2
            (applySampledTokens maxLenMinusOne tokenIds numTokens sampled sched reqNum nct
              active).2.2.1 r = hist) := by
  have hrow : (applySampledTokens maxLenMinusOne tokenIds numTokens sampled sched reqNum nct
      active).1.getD r [] =
      commitRow maxLenMinusOne active sched reqNum nct sampled r (tokenIds.getD r []) :=
    getD_range_map _ _ r [] hr1
  have hcount : (applySampledTokens maxLenMinusOne tokenIds numTokens sampled sched reqNum nct
      active).2.1.getD r 0 =
      numTokens.getD r 0 + (if commitValid active sched reqNum nct r then 1 else 0) :=
    getD_range_map _ _ r 0 hr2
  have houtTok : (applySampledTokens maxLenMinusOne tokenIds numTokens sampled sched reqNum nct
      active).2.2.1.getD r 0 =
      (if commitValid active sched reqNum nct r then sampled.getD r 0 else -1) :=
    getD_range_map _ _ r 0 hr3
  have hvalid : (applySampledTokens maxLenMinusOne tokenIds numTokens sampled sched reqNum nct
      active).2.2.2.getD r false = commitValid active sched reqNum nct r :=
    getD_range_map _ _ r false hr4
  refine ⟨?_, ?_, ?_⟩
  · rw [commitValid, hact]
    simp
  · intro hv
    refine ⟨?_, ?_, ?_, ?_⟩
    · rw [hrow, commitRow, commitIndex]
      rw [if_pos hv]
      congr 1
      ring
    · rw [hcount, if_pos hv]
    · rw [tickOutputRow, hvalid, hv, if_pos rfl, houtTok, if_pos hv]
    · intro hist
      rw [appendHist, hvalid, hv, if_pos rfl, houtTok, if_pos hv]
  · intro hv
    refine ⟨?_, ?_, ?_, ?_⟩
    · rw [hrow, commitRow]
      rw [if_neg (by simp [hv])]
      rw [add_zero]
      exact list_set_getD_self _ _
    · rw [hcount, if_neg (by simp [hv]), Nat.add_zero]
    · rw [tickOutputRow, hvalid, hv]
      simp
    · intro hist
      rw [appendHist, hvalid, hv]
      simp

/-- Witness for C3 at a concrete one-row ledger (`max_len = 4`, `nct = 2`,
`sched = 1`, `req_num_tokens = 3`). -/
theorem token_commit_condition_witness :
    (0 < List.length [[(0 : Int), 0, 0, 0]] ∧ List.getD [true] 0 false = true) ∧
      (commitValid [true] [1] [3] [2] 0 = true ↔
        (0 < List.getD [1] 0 0 ∧ List.getD [3] 0 0 ≤ List.getD [2] 0 0 + List.getD [1] 0 0)) :=
  ⟨⟨by decide, by decide⟩,
    (token_commit_condition 3 [[0, 0, 0, 0]] [2] [7] [1] [3] [2] [true] 0 (by decide)
      (by decide) (by decide) (by decide) (by decide)).1⟩

/-! ### Reclaimed-row reuse (C8)

Mirrors the tail of `eSurgeRunner._update_states` (lines 1271-1280):
`removed_req_indices = sorted(removed_req_indices, reverse=True)`, then each
request to add takes `removed_req_indices.pop()` (Python `pop()` removes the
LAST element) when the list is nonempty, else `None` (fresh row). -/

/-- Python `sorted(_, reverse=True)`. -/
def sortDescNat (l : List Nat) : List Nat := List.insertionSort (· ≥ ·) l

/-- The assignment loop: each id to add pops the last element of the
reclaimed-row list when one remains, else is assigned `none`. -/
def popAssign : List Nat → List Nat → List (Nat × Option Nat)
  | [], _ => []
  | a :: as, [] => (a, none) :: popAssign as []
  | a :: as, r :: rs =>
      (a, some ((r :: rs).getLast (List.cons_ne_nil r rs))) :: popAssign as (r :: rs).dropLast

/-- Mirrors the source: sort the reclaimed rows descending, then pop from the
end. -/
def codeAssignRows (removed toAdd : List Nat) : List (Nat × Option Nat) :=
  popAssign toAdd (sortDescNat removed)

/-- Modelled from the spec: "assign reclaimed rows (most-recently-freed
first)" -- pop from the end of the list kept in freeing order, so the most
recently freed row is handed out first. -/
def specAssignRowsMRF (removed toAdd : List Nat) : List (Nat × Option Nat) :=
  popAssign toAdd removed

theorem reverse_getD_zero (l : List Nat) (h : l ≠ []) :
    l.reverse.getD 0 0 = l.getLast h := by
  induction l using List.reverseRecOn with
  | nil => exact absurd rfl h
  | append_singleton xs x _ =>
      rw [List.reverse_append, List.getLast_concat]
      rfl

theorem dropLast_reverse_getD (l : List Nat) (h : l ≠ []) (i : Nat) :
    l.dropLast.reverse.getD i 0 = l.reverse.getD (i + 1) 0 := by
  conv_rhs => rw [← List.dropLast_append_getLast h]
  rw [List.reverse_append]
  rfl

theorem popAssign_getD (toAdd : List Nat) :
    ∀ (rem : List Nat) (i : Nat), i < toAdd.length →
      (popAssign toAdd rem).getD i (0, none) =
        (toAdd.getD i 0,
          if i < rem.length then some (rem.reverse.getD i 0) else none) := by
  induction toAdd with
  | nil => intro rem i hi; simp at hi
  | cons a as ih =>
      intro rem i hi
      cases rem with
      | nil =>
          cases i with
          | zero => simp [popAssign]
          | succ i =>
              rw [show popAssign (a :: as) [] = (a, none) :: popAssign as [] from rfl]
              rw [List.getD_cons_succ, List.getD_cons_succ]
              rw [ih [] i (by simpa using Nat.lt_of_succ_lt_succ hi)]
              simp
      | cons r rs =>
          cases i with
          | zero =>
              rw [show popAssign (a :: as) (r :: rs) =
                  (a, some ((r :: rs).getLast (List.cons_ne_nil r rs))) ::
                    popAssign as (r :: rs).dropLast from rfl]
              rw [List.getD_cons_zero, List.getD_cons_zero]
              rw [if_pos (by simp)]
              rw [reverse_getD_zero (r :: rs) (List.cons_ne_nil r rs)]
          | succ i =>
              rw [show popAssign (a :: as) (r :: rs) =
                  (a, some ((r :: rs).getLast (List.cons_ne_nil r rs))) ::
                    popAssign as (r :: rs).dropLast from rfl]
              rw [List.getD_cons_succ, List.getD_cons_succ]
              rw [ih (r :: rs).dropLast i (Nat.lt_of_succ_lt_succ hi)]
              have hlen : (r :: rs).dropLast.length = rs.length := by
                rw [List.length_dropLast]
                simp
              by_cases hib : i < rs.length
              · rw [if_pos (by omega), if_pos (by simp; omega)]
                rw [dropLast_reverse_getD (r :: rs) (List.cons_ne_nil r rs) i]
              · rw [if_neg (by omega), if_neg (by simp; omega)]

/-- Modelled from the spec: row accounting for one lifecycle sync.  Removals
leave `nRemoved` gaps; adds first fill `min nAdded nRemoved` reclaimed rows
and append the rest fresh; `condense` then eliminates the unused gaps, so one
row per tracked request remains. -/
def rowCountAfterSync (count0 nRemoved nAdded : Nat) : Nat :=
  count0 + (nAdded - min nAdded nRemoved) - (nRemoved - min nAdded nRemoved)

/-- C8 counterexample: rows 0 and 2 are freed in that order (row 2 most
recently).  The claim predicts the new request gets row 2; the code sorts
descending and pops from the end, handing out row 0. -/
theorem reclaimed_rows_order_cex :
    codeAssignRows [0, 2] [7] = [(7, some 0)] ∧
    specAssignRowsMRF [0, 2] [7] = [(7, some 2)] ∧
    codeAssignRows [0, 2] [7] ≠ specAssignRowsMRF [0, 2] [7] := by decide

/-- C8 (amended): every new request is assigned a reclaimed row while one
remains -- in ascending row-index order (smallest freed row first), not
most-recently-freed first -- and is assigned a fresh row (`none`) exactly
when the reclaimed rows are exhausted; any assigned row is one of the freed
rows, so re-adding after a removal in the same tick reuses a freed row; and
with the spec-modelled condense accounting the row count stays within
`max_num_reqs` whenever the tracked-request count does. -/
theorem reclaimed_rows_assignment (removed toAdd : List Nat) (i count0 maxR : Nat)
    (hi : i < toAdd.length) (hcap : count0 + toAdd.length ≤ maxR + removed.length)
    (hrem : removed.length ≤ count0) :
    ((codeAssignRows removed toAdd).getD i (0, none)).2 =
      (if i < removed.length then some ((sortDescNat removed).reverse.getD i 0) else none) ∧
    (sortDescNat removed).reverse.Pairwise (· ≤ ·) ∧
    (sortDescNat removed).Perm removed ∧
    (((codeAssignRows removed toAdd).getD i (0, none)).2 = none ↔ removed.length ≤ i) ∧
    (i < removed.length →
      ∃ row ∈ removed, ((codeAssignRows removed toAdd).getD i (0, none)).2 = some row) ∧
    rowCountAfterSync count0 removed.length toAdd.length ≤ maxR := by
  have hperm : (sortDescNat removed).Perm removed := List.perm_insertionSort _ removed
  have hlen : (sortDescNat removed).length = removed.length := hperm.length_eq
  have hmain := popAssign_getD toAdd (sortDescNat removed) i hi
  rw [codeAssignRows, hmain]
  refine ⟨by rw [hlen], ?_, hperm, ?_, ?_, ?_⟩
  · rw [List.pairwise_reverse]
    exact List.sorted_insertionSort (· ≥ ·) removed
  · by_cases hir : i < removed.length
    · rw [if_pos (by omega)]
      simp [hir]
    · rw [if_neg (by omega)]
      simp
      omega
  · intro hir
    rw [if_pos (by omega)]
    have hlt : i < (sortDescNat removed).reverse.length := by
      rw [List.length_reverse, hlen]; exact hir
    refine ⟨(sortDescNat removed).reverse.getD i 0, ?_, rfl⟩
    rw [List.getD_eq_getElem _ _ hlt]
    have := List.getElem_mem hlt
    rw [List.mem_reverse] at this
    exact hperm.mem_iff.mp this
  · rw [rowCountAfterSync]
    omega

/-- Witness for C8 at `removed = [0, 2]`, `toAdd = [5, 6, 7]`, `i = 0`,
`count0 = 2`, `maxR = 3`. -/
theorem reclaimed_rows_assignment_witness :
    (0 < List.length [5, 6, 7] ∧ 2 + 3 ≤ 3 + 2 ∧ 2 ≤ 2) ∧
      (sortDescNat [0, 2]).Perm [0, 2] :=
  ⟨⟨by decide, by decide, by decide⟩,
    (reclaimed_rows_assignment [0, 2] [5, 6, 7] 0 2 3 (by decide) (by decide)
      (by decide)).2.2.1⟩

/-! ### Computed-token updates across ticks (C9)

`_update_states` copies the scheduler-provided `num_computed_tokens` values
verbatim into the sequence buffer with one batched write
(`num_computed_tokens.at[idx_arr].set(val_arr)`, lines 1259-1263) and into
the cached request state (line 1236).  Nothing in the runner enforces
monotonicity or the `max_model_len` bound. -/

/-- One tick's batched write: each `(row, value)` pair overwrites the row. -/
def applyNctTick (nct : List Nat) (upds : List (Nat × Nat)) : List Nat :=
  upds.foldl (fun acc iv => acc.set iv.1 iv.2) nct

/-- The per-tick trace of the buffer's `num_computed_tokens` column. -/
def nctTrace (nct : List Nat) : List (List (Nat × Nat)) → List (List Nat)
  | [] => [nct]
  | t :: ts => nct :: nctTrace (applyNctTick nct t) ts

/-- Scheduler contract: every value written during a tick is at least the
row's value at the start of that tick and at most `max_model_len`. -/
def validNctTicks (maxLen : Nat) : List Nat → List (List (Nat × Nat)) → Bool
  | _, [] => true
  | nct, t :: ts =>
      t.all (fun iv => decide (nct.getD iv.1 0 ≤ iv.2) && decide (iv.2 ≤ maxLen)) &&
        validNctTicks maxLen (applyNctTick nct t) ts

theorem getD_set_split (l : List Nat) (i r v d : Nat) :
    (l.set i v).getD r d = if i = r ∧ i < l.length then v else l.getD r d := by
  rw [List.getD_eq_getElem?_getD, List.getD_eq_getElem?_getD, List.getElem?_set]
  by_cases h : i = r
  · subst h
    by_cases h2 : i < l.length
    · rw [if_pos rfl, if_pos h2, if_pos ⟨rfl, h2⟩]
      rfl
    · rw [if_pos rfl, if_neg h2, if_neg (by omega), List.getElem?_eq_none (by omega)]
  · rw [if_neg h, if_neg (by omega)]

theorem applyNctTick_invariant (maxLen : Nat) (nct : List Nat) (t : List (Nat × Nat)) :
    ∀ cur : List Nat,
      (∀ iv ∈ t, nct.getD iv.1 0 ≤ iv.2 ∧ iv.2 ≤ maxLen) →
      (∀ r, nct.getD r 0 ≤ cur.getD r 0) →
      (∀ r, cur.getD r 0 ≤ maxLen ∨ cur.getD r 0 = nct.getD r 0) →
      (∀ r, nct.getD r 0 ≤ (t.foldl (fun acc iv => acc.set iv.1 iv.2) cur).getD r 0) ∧
        (∀ r, (t.foldl (fun acc iv => acc.set iv.1 iv.2) cur).getD r 0 ≤ maxLen ∨
          (t.foldl (fun acc iv => acc.set iv.1 iv.2) cur).getD r 0 = nct.getD r 0) := by
  induction t with
  | nil => intro cur _ h1 h2; exact ⟨h1, h2⟩
  | cons iv t ih =>
      intro cur ht h1 h2
      rw [List.foldl_cons]
      apply ih (cur.set iv.1 iv.2) (fun iv2 hiv2 => ht iv2 (by simp [hiv2]))
      · intro r
        rw [getD_set_split]
        by_cases h : iv.1 = r ∧ iv.1 < cur.length
        · rw [if_pos h]
          obtain ⟨hir, _⟩ := h
          rw [← hir]
          exact (ht iv (by simp)).1
        · rw [if_neg h]
          exact h1 r
      · intro r
        rw [getD_set_split]
        by_cases h : iv.1 = r ∧ iv.1 < cur.length
        · rw [if_pos h]
          exact Or.inl (ht iv (by simp)).2
        · rw [if_neg h]
          exact h2 r

theorem applyNctTick_le (maxLen : Nat) (nct : List Nat) (t : List (Nat × Nat))
    (ht : ∀ iv ∈ t, nct.getD iv.1 0 ≤ iv.2 ∧ iv.2 ≤ maxLen) :
    (∀ r, nct.getD r 0 ≤ (applyNctTick nct t).getD r 0) ∧
      (∀ r, nct.getD r 0 ≤ maxLen → (applyNctTick nct t).getD r 0 ≤ maxLen) := by
  have h := applyNctTick_invariant maxLen nct t nct ht (fun r => le_rfl) (fun r => Or.inr rfl)
  refine ⟨h.1, fun r hb => ?_⟩
  rcases h.2 r with h2 | h2
  · exact h2
  · rw [applyNctTick] at *
    omega

/-- C9 counterexample: `_update_states` copies the scheduler value verbatim,
so a tick carrying a smaller `num_computed_tokens` makes the row decrease
(from 5 to 2 here), contradicting unconditional tick-to-tick monotonicity. -/
theorem nct_decrease_cex :
    applyNctTick [5] [(0, 2)] = [2] ∧ ¬ (5 : Nat) ≤ 2 := by decide

/-- C9 (amended): the runner stores scheduler-provided values verbatim;
provided every value the scheduler reports is at least the row's current
value and at most `max_model_len`, the per-row `num_computed_tokens` is
non-decreasing from tick to tick and never exceeds `max_model_len`. -/
theorem nct_monotone_of_valid_ticks (maxLen : Nat) (ticks : List (List (Nat × Nat)))
    (nct : List Nat) (hvalid : validNctTicks maxLen nct ticks = true)
    (hbound : ∀ r, nct.getD r 0 ≤ maxLen) :
    List.Chain' (fun a b : List Nat => ∀ r, a.getD r 0 ≤ b.getD r 0) (nctTrace nct ticks) ∧
      ∀ st ∈ nctTrace nct ticks, ∀ r, st.getD r 0 ≤ maxLen := by
  induction ticks generalizing nct with
  | nil =>
      refine ⟨by simp [nctTrace], ?_⟩
      intro st hst r
      rw [nctTrace] at hst
      simp at hst
      subst hst
      exact hbound r
  | cons t ts ih =>
      rw [validNctTicks, Bool.and_eq_true] at hvalid
      have ht : ∀ iv ∈ t, nct.getD iv.1 0 ≤ iv.2 ∧ iv.2 ≤ maxLen := by
        intro iv hiv
        have := List.all_eq_true.mp hvalid.1 iv hiv
        rw [Bool.and_eq_true, decide_eq_true_eq, decide_eq_true_eq] at this
        exact this
      have hstep := applyNctTick_le maxLen nct t ht
      have hbound2 : ∀ r, (applyNctTick nct t).getD r 0 ≤ maxLen :=
        fun r => hstep.2 r (hbound r)
      obtain ⟨ihchain, ihbound⟩ := ih (applyNctTick nct t) hvalid.2 hbound2
      constructor
      · rw [nctTrace, List.chain'_cons']
        refine ⟨?_, ihchain⟩
        intro b hb
        have hhead : (nctTrace (applyNctTick nct t) ts).head? = some (applyNctTick nct t) := by
          cases ts <;> rfl
        rw [hhead] at hb
        simp only [Option.mem_def, Option.some.injEq] at hb
        subst hb
        exact hstep.1
      · intro st hst
        rw [nctTrace, List.mem_cons] at hst
        rcases hst with rfl | hst2
        · exact hbound
        · exact ihbound st hst2

/-- Witness for C9 with two valid ticks on a one-row buffer. -/
theorem nct_monotone_witness :
    (validNctTicks 10 [1] [[(0, 3)], [(0, 4)]] = true ∧ ∀ r, List.getD [1] r 0 ≤ 10) ∧
      (List.Chain' (fun a b : List Nat => ∀ r, a.getD r 0 ≤ b.getD r 0)
          (nctTrace [1] [[(0, 3)], [(0, 4)]]) ∧
        ∀ st ∈ nctTrace [1] [[(0, 3)], [(0, 4)]], ∀ r, st.getD r 0 ≤ 10) :=
  ⟨⟨by decide, fun r => by cases r <;> simp [List.getD]⟩,
    nct_monotone_of_valid_ticks 10 [[(0, 3)], [(0, 4)]] [1] (by decide)
      (fun r => by cases r <;> simp [List.getD])⟩

/-! ### Slot mapping (C1, C10)

Mirrors the slot-mapping block of the jitted input preparation
`get_prepare_inputs_fn` (model_runner.py lines 874-929).  `s` is
`num_computed_tokens` and `t` the masked `scheduled` vector
(`where(i_reqs < nr, scheduled_full, 0)`); `P` is the page size.  Slice
index space: `page_lens = where(scheduled > 0, lpe - lps + 1, 0)`,
`page_cum = cumsum(page_lens)`; a slice index `i` is active when
`i < total_pages` and `i < padded_num_slices` (the latter is the capacity
`cap` computed from the padding ladder and the cache metadata, which lives
outside this file's source; it is passed as a parameter).  Inactive slice
columns are filled with the `SLOT_MAPPING_PADDING` sentinel and are not
modelled here: `codeSlotMapping` is the list of active slices. -/

structure SlotSlice where
  dest : Int
  src : Nat
  len : Nat
deriving DecidableEq, Repr

/-- Flattened page-table read (`pt_full[gpi]`); a jnp gather clamps an
out-of-range index into range. -/
def readPT (pt : List Int) (idx : Nat) : Int := pt.getD (min idx (pt.length - 1)) 0

/-- `e = s + scheduled`. -/
def eTok (s t : List Nat) (r : Nat) : Nat := s.getD r 0 + t.getD r 0

/-- `lps = s // page_size`. -/
def firstPage (P : Nat) (s : List Nat) (r : Nat) : Nat := s.getD r 0 / P

/-- `lpe = (maximum(e, 1) - 1) // page_size`. -/
def lastPage (P : Nat) (s t : List Nat) (r : Nat) : Nat := (max (eTok s t r) 1 - 1) / P

/-- `page_lens = where(scheduled > 0, lpe - lps + 1, 0)`. -/
def pageLens (P : Nat) (s t : List Nat) (r : Nat) : Nat :=
  if 0 < t.getD r 0 then lastPage P s t r - firstPage P s r + 1 else 0

def pageLensList (P : Nat) (s t : List Nat) : List Nat :=
  (List.range t.length).map fun r => pageLens P s t r

/-- `total_pages = sum(page_lens)`. -/
def totalPages (P : Nat) (s t : List Nat) : Nat := (pageLensList P s t).sum

/-- `page_cum = cumsum(page_lens)`. -/
def cumList : List Nat → List Nat
  | [] => []
  | c :: cs => c :: (cumList cs).map (c + ·)

/-- `searchsorted(cum, i, side = "right")` on the sorted cumulative list:
the first index whose entry exceeds `i`. -/
def rqOf (cnt : List Nat) (i : Nat) : Nat := (cumList cnt).findIdx fun c => decide (i < c)

/-- `page_cum_prev[r]`: the sum of the first `r` counts (the cumulative list
shifted right by one). -/
def cumBefore (cnt : List Nat) (r : Nat) : Nat := (cnt.take r).sum

/-- `local_off = i - page_cum_prev[req_for_slice]`. -/
def offOf (cnt : List Nat) (i : Nat) : Nat := i - cumBefore cnt (rqOf cnt i)

/-- `req_for_slice` for slice index `i`. -/
def reqForSlice (P : Nat) (s t : List Nat) (i : Nat) : Nat := rqOf (pageLensList P s t) i

/-- `local_off` for slice index `i`. -/
def localOff (P : Nat) (s t : List Nat) (i : Nat) : Nat := offOf (pageLensList P s t) i

/-- `s_mod = s % page_size`. -/
def sMod (P : Nat) (s : List Nat) (r : Nat) : Nat := s.getD r 0 % P

/-- `e_mod = ((maximum(e, 1) - 1) % page_size) + 1`. -/
def eMod (P : Nat) (s t : List Nat) (r : Nat) : Nat := (max (eTok s t r) 1 - 1) % P + 1

/-- The `(kv_cache_start, slice_len)` computation for the slice of request
`r` at local page offset `j` (lines 902-915): start `s_mod` on the first
slice else `0`; end `e_mod` on the last slice else `page_size`; length
clamped at `0` (Nat subtraction); destination `kv_local_st + page_number *
page_size` with the page number gathered from the flattened page table at
`r * max_pages_per_req + lps[r] + j`. -/
def slicePair (P maxPages : Nat) (pt : List Int) (s t : List Nat) (r j : Nat) : Int × Nat :=
  let st := if j = 0 then sMod P s r else 0
  let en := if j = pageLens P s t r - 1 then eMod P s t r else P
  let pageNum := readPT pt (r * maxPages + firstPage P s r + j)
  ((st : Int) + pageNum * P, en - st)

/-- The `(dest, len)` columns of the active slices, in slice-index order:
the code evaluates `slicePair` at `(req_for_slice i, local_off i)` for each
active index `i < min(total_pages, padded_num_slices)`. -/
def codePairs (P maxPages : Nat) (pt : List Int) (s t : List Nat) (cap : Nat) :
    List (Int × Nat) :=
  (List.range (min (totalPages P s t) cap)).map fun i =>
    slicePair P maxPages pt s t (reqForSlice P s t i) (localOff P s t i)

/-- `new_kv_start`: the exclusive running sum of the active slice lengths
(`roll(cumsum(lens), 1)` with slot 0 reset, lines 918-921), attached to each
`(dest, len)` column. -/
def withSrc (pairs : List (Int × Nat)) : List SlotSlice :=
  (List.range pairs.length).map fun k =>
    { dest := (pairs.getD k (0, 0)).1,
      src := ((pairs.take k).map Prod.snd).sum,
      len := (pairs.getD k (0, 0)).2 }

/-- The slot mapping produced by the jitted input preparation for one window:
all active slices with their cache destinations, source offsets and lengths. -/
def codeSlotMapping (P maxPages : Nat) (pt : List Int) (s t : List Nat) (cap : Nat) :
    List SlotSlice :=
  withSrc (codePairs P maxPages pt s t cap)

/-- The slices of one request according to the spec wording: a request with
no scheduled tokens contributes nothing; otherwise `first = s // P`,
`last = (s + t - 1) // P`, one slice per page from `first` to `last`, the
intra-page range starting at `s % P` on the first slice (else `0`) and
ending at `((s + t - 1) % P) + 1` on the last slice (else `P`), with length
`end - start` clamped at `0`, and destination `local_start + phys * P` where
`phys` is read from the flattened page table at
`r * max_pages_per_req + first + j`. -/
def specPairsForReq (P maxPages : Nat) (pt : List Int) (r sr tr : Nat) : List (Int × Nat) :=
  if tr = 0 then []
  else
    let first := sr / P
    let last := (sr + tr - 1) / P
    (List.range (last - first + 1)).map fun j =>
      let lstart := if j = 0 then sr % P else 0
      let lend := if j = last - first then (sr + tr - 1) % P + 1 else P
      let phys := readPT pt (r * maxPages + first + j)
      ((lstart : Int) + phys * P, lend - lstart)

/-- The spec's slot mapping: the per-request slices concatenated in request
order. -/
def specPairs (P maxPages : Nat) (pt : List Int) (s t : List Nat) : List (Int × Nat) :=
  (List.range t.length).flatMap fun r =>
    specPairsForReq P maxPages pt r (s.getD r 0) (t.getD r 0)

def specSlotMapping (P maxPages : Nat) (pt : List Int) (s t : List Nat) : List SlotSlice :=
  withSrc (specPairs P maxPages pt s t)

theorem findIdx_lt_map_add (c v : Nat) (l : List Nat) :
    (l.map (c + ·)).findIdx (fun x => decide (c + v < x)) =
      l.findIdx fun x => decide (v < x) := by
  induction l with
  | nil => rfl
  | cons y l ih =>
      rw [List.map_cons, List.findIdx_cons, List.findIdx_cons, ih]
      have hd : decide (c + v < c + y) = decide (v < y) := by
        by_cases h : v < y
        · rw [decide_eq_true (show c + v < c + y by omega), decide_eq_true h]
        · rw [decide_eq_false (show ¬ c + v < c + y by omega), decide_eq_false h]
      rw [hd]

/-- Decomposition of the flat slice-index space: mapping `g` over the
`searchsorted`-decomposed indices enumerates, request by request, the pairs
`(r, j)` with `j < cnt[r]`. -/
theorem decompose_flatten {α : Type} (cnt : List Nat) (g : Nat → Nat → α) :
    (List.range cnt.sum).map (fun i => g (rqOf cnt i) (i - cumBefore cnt (rqOf cnt i))) =
      (List.range cnt.length).flatMap fun r => (List.range (cnt.getD r 0)).map (g r) := by
  induction cnt generalizing g with
  | nil => simp
  | cons c cs ih =>
      have hgd : ∀ a : Nat, (c :: cs).getD (a + 1) 0 = cs.getD a 0 := fun a =>
        List.getD_cons_succ
      rw [List.sum_cons, List.range_add, List.map_append, List.map_map]
      rw [List.length_cons, List.range_succ_eq_map, List.flatMap_cons, List.flatMap_map]
      congr 1
      · apply List.map_congr_left
        intro i hi
        have hic : i < c := List.mem_range.mp hi
        have hrq : rqOf (c :: cs) i = 0 := by
          rw [rqOf, cumList, List.findIdx_cons, decide_eq_true hic]
          rfl
        rw [hrq]
        simp [cumBefore]
      · have hrq : ∀ i : Nat, rqOf (c :: cs) (c + i) = rqOf cs i + 1 := by
          intro i
          rw [rqOf, cumList, List.findIdx_cons,
            decide_eq_false (show ¬ c + i < c by omega)]
          rw [show (bif false then 0 else
              ((cumList cs).map (c + ·)).findIdx (fun x => decide (c + i < x)) + 1) =
              ((cumList cs).map (c + ·)).findIdx (fun x => decide (c + i < x)) + 1 from rfl]
          rw [findIdx_lt_map_add c i (cumList cs)]
          rfl
        have hcb : ∀ r : Nat, cumBefore (c :: cs) (r + 1) = c + cumBefore cs r := by
          intro r
          rw [cumBefore, cumBefore, List.take_succ_cons, List.sum_cons]
        calc List.map
              ((fun i => g (rqOf (c :: cs) i) (i - cumBefore (c :: cs) (rqOf (c :: cs) i))) ∘
                fun x => c + x) (List.range cs.sum)
            = (List.range cs.sum).map
                (fun i => g (rqOf cs i + 1) (i - cumBefore cs (rqOf cs i))) := by
              apply List.map_congr_left
              intro i _
              simp only [Function.comp_apply]
              rw [hrq i, hcb (rqOf cs i), Nat.add_sub_add_left]
          _ = (List.range cs.length).flatMap
                (fun r => (List.range (cs.getD r 0)).map (g (r + 1))) :=
              ih fun r j => g (r + 1) j
          _ = (List.range cs.length).flatMap
                (fun a => (List.range ((c :: cs).getD (a + 1) 0)).map
                  ((fun i => g i) (a + 1))) := by
              refine congrArg _ (funext fun a => ?_)
              rw [hgd a]

theorem perReq_pairs (P maxPages : Nat) (pt : List Int) (s t : List Nat) (r : Nat)
    (hr : r < t.length) :
    (List.range ((pageLensList P s t).getD r 0)).map (slicePair P maxPages pt s t r) =
      specPairsForReq P maxPages pt r (s.getD r 0) (t.getD r 0) := by
  have hcnt : (pageLensList P s t).getD r 0 = pageLens P s t r :=
    getD_range_map _ _ r 0 hr
  rw [hcnt]
  by_cases ht : t.getD r 0 = 0
  · rw [specPairsForReq, if_pos ht, pageLens, if_neg (by omega)]
    rfl
  · have htpos : 0 < t.getD r 0 := by omega
    have hmax : max (s.getD r 0 + t.getD r 0) 1 = s.getD r 0 + t.getD r 0 :=
      Nat.max_eq_left (by omega)
    have hlen : pageLens P s t r =
        (s.getD r 0 + t.getD r 0 - 1) / P - s.getD r 0 / P + 1 := by
      rw [pageLens, if_pos htpos, lastPage, firstPage, eTok, hmax]
    rw [specPairsForReq, if_neg ht, hlen]
    apply List.map_congr_left
    intro j _
    simp only [slicePair, sMod, eMod, eTok, firstPage, hlen, hmax, Nat.add_sub_cancel]

/-- The vectorized active-slice computation coincides with the spec's
per-request enumeration whenever the padded slice capacity is not exceeded. -/
theorem codePairs_eq_specPairs (P maxPages : Nat) (pt : List Int) (s t : List Nat)
    (cap : Nat) (hcap : totalPages P s t ≤ cap) :
    codePairs P maxPages pt s t cap = specPairs P maxPages pt s t := by
  rw [codePairs, Nat.min_eq_left hcap]
  have hdec := decompose_flatten (pageLensList P s t) (slicePair P maxPages pt s t)
  have hlen : (pageLensList P s t).length = t.length := by
    rw [pageLensList, List.length_map, List.length_range]
  rw [show totalPages P s t = (pageLensList P s t).sum from rfl]
  rw [show (fun i => slicePair P maxPages pt s t (reqForSlice P s t i) (localOff P s t i)) =
      (fun i => slicePair P maxPages pt s t (rqOf (pageLensList P s t) i)
        (i - cumBefore (pageLensList P s t) (rqOf (pageLensList P s t) i))) from rfl]
  rw [hdec, hlen, specPairs]
  apply List.flatMap_congr
  intro r hrr
  exact perReq_pairs P maxPages pt s t r (List.mem_range.mp hrr)

/-- C1: slot-mapping correctness.  For every window (computed counts `s`,
masked scheduled counts `t`, page table, positive page size) whose active
slices fit the padded capacity, the slot mapping produced by the jitted
input preparation equals the spec's per-request algorithm: a request with no
scheduled tokens contributes no slices, a scheduled request contributes
`last_page - first_page + 1` consecutive slices with first/last intra-page
adjustments and destinations read from the flattened page table; in
particular `start = 14`, `end = 18`, `page_size = 16`, pages `[3, 7]` yields
exactly `(3*16+14, 0, 2)` then `(7*16+0, 2, 2)`. -/
theorem slot_mapping_follows_spec (P maxPages : Nat) (pt : List Int) (s t : List Nat)
    (cap : Nat) (hP : 0 < P) (hcap : totalPages P s t ≤ cap) :
    codeSlotMapping P maxPages pt s t cap = specSlotMapping P maxPages pt s t ∧
    codeSlotMapping 16 2 [3, 7] [14] [4] 8 =
      [{ dest := 62, src := 0, len := 2 }, { dest := 112, src := 2, len := 2 }] := by
  refine ⟨?_, by decide⟩
  rw [codeSlotMapping, specSlotMapping, codePairs_eq_specPairs P maxPages pt s t cap hcap]

/-- Witness for C1 at the spec's two-page example. -/
theorem slot_mapping_follows_spec_witness :
    (0 < 16 ∧ totalPages 16 [14] [4] ≤ 8) ∧
      (codeSlotMapping 16 2 [3, 7] [14] [4] 8 = specSlotMapping 16 2 [3, 7] [14] [4] ∧
        codeSlotMapping 16 2 [3, 7] [14] [4] 8 =
          [{ dest := 62, src := 0, len := 2 }, { dest := 112, src := 2, len := 2 }]) :=
  ⟨⟨by decide, by decide⟩,
    slot_mapping_follows_spec 16 2 [3, 7] [14] [4] 8 (by decide) (by decide)⟩

/-! ### Slice lengths tile the fresh-KV buffer (C10) -/

theorem sum_sub_telescope (f : Nat → Nat) (hf : ∀ j, f j ≤ f (j + 1)) (n : Nat) :
    ((List.range n).map fun j => f (j + 1) - f j).sum = f n - f 0 := by
  induction n with
  | zero => simp
  | succ n ih =>
      rw [List.range_succ, List.map_append, List.sum_append, ih]
      have h1 : f 0 ≤ f n := monotone_nat_of_le_succ hf (Nat.zero_le n)
      have h2 : f n ≤ f (n + 1) := hf n
      simp only [List.map_cons, List.map_nil, List.sum_cons, List.sum_nil]
      omega

/-- Absolute token boundary of slice `j` of a request starting at `sr` with
`tr` fresh tokens: the page boundary `(first + j) * P` clamped into
`[sr, sr + tr]`.  Slice `j` covers the token range `[F j, F (j+1))`. -/
def sliceBound (P sr tr j : Nat) : Nat := max sr (min (sr + tr) (P * (sr / P + j)))

theorem sliceBound_mono (P sr tr : Nat) : ∀ j, sliceBound P sr tr j ≤ sliceBound P sr tr (j + 1) :=
  fun j => max_le_max le_rfl (min_le_min le_rfl (Nat.mul_le_mul_left P (by omega)))

theorem page_slice_len_sum (P sr tr : Nat) (hP : 0 < P) (htpos : 0 < tr) :
    ((List.range ((sr + tr - 1) / P - sr / P + 1)).map fun j =>
      (if j = (sr + tr - 1) / P - sr / P then (sr + tr - 1) % P + 1 else P) -
        (if j = 0 then sr % P else 0)).sum = tr := by
  have hd1 : P * (sr / P) + sr % P = sr := Nat.div_add_mod sr P
  have hd2 : P * ((sr + tr - 1) / P) + (sr + tr - 1) % P = sr + tr - 1 :=
    Nat.div_add_mod (sr + tr - 1) P
  have hm1 : sr % P < P := Nat.mod_lt _ hP
  have hm2 : (sr + tr - 1) % P < P := Nat.mod_lt _ hP
  have hfl : sr / P ≤ (sr + tr - 1) / P := Nat.div_le_div_right (by omega)
  have hv0 : sliceBound P sr tr 0 = sr := by
    rw [sliceBound, Nat.add_zero, min_eq_right (by omega)]
    exact max_eq_left (by omega)
  have hkey : ∀ j ∈ List.range ((sr + tr - 1) / P - sr / P + 1),
      (if j = (sr + tr - 1) / P - sr / P then (sr + tr - 1) % P + 1 else P) -
        (if j = 0 then sr % P else 0) =
      sliceBound P sr tr (j + 1) - sliceBound P sr tr j := by
    intro j hj
    have hjle : j ≤ (sr + tr - 1) / P - sr / P := by
      have := List.mem_range.mp hj; omega
    by_cases hj0 : j = 0
    · subst hj0
      rw [hv0]
      by_cases hlast : (0 : Nat) = (sr + tr - 1) / P - sr / P
      · have hBA : P * ((sr + tr - 1) / P) = P * (sr / P) := by
          rw [show (sr + tr - 1) / P = sr / P by omega]
        have hv1 : sliceBound P sr tr 1 = sr + tr := by
          have hP1 : P * (sr / P + 1) = P * (sr / P) + P := by ring
          rw [sliceBound, hP1, min_eq_left (by omega)]
          exact max_eq_right (by omega)
        rw [if_pos hlast, if_pos rfl, hv1]
        omega
      · have hAB : P * (sr / P) + P ≤ P * ((sr + tr - 1) / P) := by
          have hmul := Nat.mul_le_mul_left P (show sr / P + 1 ≤ (sr + tr - 1) / P by omega)
          calc P * (sr / P) + P = P * (sr / P + 1) := by ring
            _ ≤ P * ((sr + tr - 1) / P) := hmul
        have hv1 : sliceBound P sr tr 1 = P * (sr / P) + P := by
          have hP1 : P * (sr / P + 1) = P * (sr / P) + P := by ring
          rw [sliceBound, hP1, min_eq_right (by omega)]
          exact max_eq_right (by omega)
        rw [if_neg hlast, if_pos rfl, hv1]
        omega
    · by_cases hlast : j = (sr + tr - 1) / P - sr / P
      · have hj1 : 1 ≤ j := by omega
        have hfj : sr / P + j = (sr + tr - 1) / P := by omega
        have hAB : P * (sr / P) + P ≤ P * ((sr + tr - 1) / P) := by
          have hmul := Nat.mul_le_mul_left P (show sr / P + 1 ≤ (sr + tr - 1) / P by omega)
          calc P * (sr / P) + P = P * (sr / P + 1) := by ring
            _ ≤ P * ((sr + tr - 1) / P) := hmul
        have hvj : sliceBound P sr tr j = P * ((sr + tr - 1) / P) := by
          rw [sliceBound, hfj, min_eq_right (by omega)]
          exact max_eq_right (by omega)
        have hvj1 : sliceBound P sr tr (j + 1) = sr + tr := by
          have hP1 : P * (sr / P + (j + 1)) = P * ((sr + tr - 1) / P) + P := by
            rw [show sr / P + (j + 1) = (sr + tr - 1) / P + 1 by omega]
            ring
          rw [sliceBound, hP1, min_eq_left (by omega)]
          exact max_eq_right (by omega)
        rw [if_pos hlast, if_neg hj0, hvj, hvj1]
        omega
      · have hj1 : 1 ≤ j := by omega
        have hjmid : j < (sr + tr - 1) / P - sr / P := by omega
        have hCA : P * (sr / P) + P ≤ P * (sr / P + j) := by
          have hmul := Nat.mul_le_mul_left P (show sr / P + 1 ≤ sr / P + j by omega)
          calc P * (sr / P) + P = P * (sr / P + 1) := by ring
            _ ≤ P * (sr / P + j) := hmul
        have hCB : P * (sr / P + j) + P ≤ P * ((sr + tr - 1) / P) := by
          have hmul := Nat.mul_le_mul_left P
            (show sr / P + j + 1 ≤ (sr + tr - 1) / P by omega)
          calc P * (sr / P + j) + P = P * (sr / P + j + 1) := by ring
            _ ≤ P * ((sr + tr - 1) / P) := hmul
        have hvj : sliceBound P sr tr j = P * (sr / P + j) := by
          rw [sliceBound, min_eq_right (by omega)]
          exact max_eq_right (by omega)
        have hvj1 : sliceBound P sr tr (j + 1) = P * (sr / P + j) + P := by
          have hP1 : P * (sr / P + (j + 1)) = P * (sr / P + j) + P := by ring
          rw [sliceBound, hP1, min_eq_right (by omega)]
          exact max_eq_right (by omega)
        rw [if_neg hlast, if_neg hj0, hvj, hvj1]
        omega
  rw [List.map_congr_left hkey]
  rw [sum_sub_telescope (sliceBound P sr tr) (sliceBound_mono P sr tr)]
  have hvn : sliceBound P sr tr ((sr + tr - 1) / P - sr / P + 1) = sr + tr := by
    have hP1 : P * (sr / P + ((sr + tr - 1) / P - sr / P + 1)) =
        P * ((sr + tr - 1) / P) + P := by
      rw [show sr / P + ((sr + tr - 1) / P - sr / P + 1) = (sr + tr - 1) / P + 1 by omega]
      ring
    rw [sliceBound, hP1, min_eq_left (by omega)]
    exact max_eq_right (by omega)
  rw [hv0, hvn]
  omega

theorem specPairsForReq_len_sum (P maxPages : Nat) (pt : List Int) (r sr tr : Nat)
    (hP : 0 < P) :
    ((specPairsForReq P maxPages pt r sr tr).map Prod.snd).sum = tr := by
  by_cases ht : tr = 0
  · rw [specPairsForReq, if_pos ht, ht]
    rfl
  · rw [specPairsForReq, if_neg ht]
    refine Eq.trans ?_ (page_slice_len_sum P sr tr hP (by omega))
    congr 1
    rw [List.map_map]
    apply List.map_congr_left
    intro j _
    rfl

theorem range_map_getD {α : Type} (ps : List α) (d : α) :
    (List.range ps.length).map (fun k => ps.getD k d) = ps := by
  induction ps with
  | nil => rfl
  | cons p ps ih =>
      rw [List.length_cons, List.range_succ_eq_map, List.map_cons, List.map_map]
      rw [List.getD_cons_zero]
      congr 1

theorem withSrc_map_len (ps : List (Int × Nat)) :
    (withSrc ps).map SlotSlice.len = ps.map Prod.snd := by
  rw [withSrc, List.map_map]
  have h2 : List.map (fun k => (ps.getD k (0, 0)).2) (List.range ps.length) =
      ps.map Prod.snd := by
    have h3 := congrArg (List.map Prod.snd) (range_map_getD ps (0, 0))
    rw [List.map_map] at h3
    exact h3
  refine Eq.trans ?_ h2
  apply List.map_congr_left
  intro k _
  rfl

theorem specPairs_len_sum (P maxPages : Nat) (pt : List Int) (s t : List Nat) (hP : 0 < P) :
    ((specPairs P maxPages pt s t).map Prod.snd).sum = t.sum := by
  rw [specPairs, List.map_flatMap, List.flatMap_def, List.sum_flatten, List.map_map]
  have h1 : ∀ r ∈ List.range t.length,
      (List.sum ∘ fun a =>
        List.map Prod.snd (specPairsForReq P maxPages pt a (s.getD a 0) (t.getD a 0))) r =
      t.getD r 0 := by
    intro r _
    exact specPairsForReq_len_sum P maxPages pt r _ _ hP
  rw [List.map_congr_left h1]
  exact congrArg List.sum (range_map_getD t 0)

/-- C10 (implicit): the active slices tile the flat buffer of freshly
computed KV rows.  Their lengths sum to the window's total scheduled token
count, and each slice's `new_kv_start` equals the sum of the lengths of all
earlier active slices (so the slices are contiguous, without gaps or
overlaps). -/
theorem slot_mapping_partitions_buffer (P maxPages : Nat) (pt : List Int) (s t : List Nat)
    (cap : Nat) (hP : 0 < P) (hcap : totalPages P s t ≤ cap) :
    ((codeSlotMapping P maxPages pt s t cap).map SlotSlice.len).sum = t.sum ∧
    ∀ k, k < (codeSlotMapping P maxPages pt s t cap).length →
      ((codeSlotMapping P maxPages pt s t cap).getD k
          { dest := 0, src := 0, len := 0 }).src =
        (((codeSlotMapping P maxPages pt s t cap).map SlotSlice.len).take k).sum := by
  have hpairs := codePairs_eq_specPairs P maxPages pt s t cap hcap
  constructor
  · rw [codeSlotMapping, withSrc_map_len, hpairs]
    exact specPairs_len_sum P maxPages pt s t hP
  · intro k hk
    rw [codeSlotMapping] at hk ⊢
    have hlen : (withSrc (codePairs P maxPages pt s t cap)).length =
        (codePairs P maxPages pt s t cap).length := by
      rw [withSrc, List.length_map, List.length_range]
    rw [hlen] at hk
    have hget : (withSrc (codePairs P maxPages pt s t cap)).getD k
        { dest := 0, src := 0, len := 0 } =
        { dest := ((codePairs P maxPages pt s t cap).getD k (0, 0)).1,
          src := (((codePairs P maxPages pt s t cap).take k).map Prod.snd).sum,
          len := ((codePairs P maxPages pt s t cap).getD k (0, 0)).2 } := by
      rw [withSrc]
      exact getD_range_map _ _ k _ hk
    rw [hget, withSrc_map_len, ← List.map_take]

/-- Witness for C10 at the spec's two-page example. -/
theorem slot_mapping_partitions_witness :
    (0 < 16 ∧ totalPages 16 [14] [4] ≤ 8) ∧
      ((codeSlotMapping 16 2 [3, 7] [14] [4] 8).map SlotSlice.len).sum = List.sum [4] :=
  ⟨⟨by decide, by decide⟩,
    (slot_mapping_partitions_buffer 16 2 [3, 7] [14] [4] 8 (by decide) (by decide)).1⟩
